import Mathlib

/-!
Verification of the resume-PDF layout engine
(`src/app/api/generate-dynamic-resume-pdf/route.ts`).

The TypeScript source is embedded shallowly:

* JavaScript strings are Lean `String`s; all character-level operations
  (`trim`, `split`, regex tests) are defined from scratch over `List Char`
  with JavaScript semantics (JS whitespace set, JS `.` not matching line
  terminators, JS `split(sep)` keeping empty pieces).
* Machine floats are modelled as exact rationals `ℚ`.
* Font metrics (`font.widthOfTextAtSize`) are modelled by a per-character
  advance-width function `Char → ℚ`, with
  `widthOfTextAtSize font text size = (Σ chars) * size`.
* The pdf-lib side effects (`addPage`, `drawText`, `drawLine`) are modelled
  as an event trace `List Ev`, and the mutable cursor/page state of
  `generateResumePdf` as an explicit state record threaded through.
-/

namespace ResumeTailor

/-- JavaScript whitespace (the `\s` class / `String.prototype.trim` set). -/
def jsWs (c : Char) : Bool :=
  c = ' ' || c = '\t' || c = '\n' || c = '\r' || c = '\x0b' || c = '\x0c' ||
  c = '\u00A0' || c = '\u1680' || ('\u2000' ≤ c && c ≤ '\u200A') ||
  c = '\u2028' || c = '\u2029' || c = '\u202F' || c = '\u205F' ||
  c = '\u3000' || c = '\uFEFF'

/-- JavaScript `.` (dot) without the `s` flag: any char except a line terminator. -/
def jsDot (c : Char) : Bool :=
  !(c = '\n' || c = '\r' || c = '\u2028' || c = '\u2029')

/-- JavaScript `String.prototype.trim` on a character list. -/
def jsTrim (cs : List Char) : List Char :=
  ((cs.dropWhile jsWs).reverse.dropWhile jsWs).reverse

/-- Rebuild a `String` from a character list. -/
def ofChars (cs : List Char) : String := String.mk cs

/-- JavaScript `trim` at the `String` level. -/
def jsTrimS (s : String) : String := ofChars (jsTrim s.data)

/-- JavaScript `split` on the set of characters satisfying `p`
(empty pieces are kept; `split` of the empty string is `[""]`). -/
def splitP (p : Char → Bool) : List Char → List (List Char)
  | [] => [[]]
  | c :: cs =>
    if p c then [] :: splitP p cs
    else
      match splitP p cs with
      | [] => [[c]]
      | w :: ws => (c :: w) :: ws

/-- JavaScript `resumeText.split('\n')`. -/
def jsSplitNl (s : String) : List String :=
  (splitP (fun c => c = '\n') s.data).map ofChars

/-- `Array.prototype.join('\n')`. -/
def joinNl (ls : List String) : String := String.intercalate "\n" ls

/-- JS `toUpperCase` (ASCII case mapping, per character). -/
def jsToUpper (s : String) : String := ofChars (s.data.map Char.toUpper)

/-- JS `toLowerCase` (ASCII case mapping, per character). -/
def jsToLower (s : String) : String := ofChars (s.data.map Char.toLower)

/-- Does the string end with `':'` (JS `line.endsWith(':')`). -/
def endsWithColon (s : String) : Bool := s.data.getLast? = some ':'

end ResumeTailor

namespace ResumeTailor

/-! ## `parseResume` (route.ts lines 7–22) -/

/-- The header-collection loop of `parseResume`: walk the lines, pushing each
non-blank trimmed line, and stop as soon as six have been collected,
recording `idx + 1` as `bodyStart` (`0` if six are never reached).
`acc` is the reversed accumulator, `i` the current line index. -/
def collectInfo : List String → List String → Nat → List String × Nat
  | [], acc, _ => (acc.reverse, 0)
  | l :: ls, acc, i =>
    let acc' := if jsTrimS l ≠ "" then jsTrimS l :: acc else acc
    if acc'.length = 6 then (acc'.reverse, i + 1) else collectInfo ls acc' (i + 1)

/-- Result record of `parseResume`; missing destructured fields are `none`
(JS `undefined`). -/
structure ResumeInfo where
  headline : Option String
  name : Option String
  email : Option String
  phone : Option String
  location : Option String
  linkedin : Option String
  body : String
deriving Repr, DecidableEq

/-- `parseResume` from the source: collect the first six non-blank trimmed
lines positionally, skip blank lines after the collection point, and join
the remainder as the body. -/
def parseResume (resumeText : String) : ResumeInfo :=
  let lines := jsSplitNl resumeText
  let p := collectInfo lines [] 0
  let info := p.1
  { headline := info.get? 0
    name := info.get? 1
    email := info.get? 2
    phone := info.get? 3
    location := info.get? 4
    linkedin := info.get? 5
    body := joinNl ((lines.drop p.2).dropWhile fun l => jsTrimS l = "") }

/-- The non-blank lines of a line list, trimmed (measurement used to state
the header-extraction properties). -/
def nbOf (lines : List String) : List String :=
  (lines.filter fun l => jsTrimS l ≠ "").map jsTrimS

/-- The suffix of a line list starting right after its `n`-th non-blank
line (the whole list for `n = 0`; `[]` when fewer than `n` non-blank lines
exist). -/
def afterNonblanks : Nat → List String → List String
  | 0, ls => ls
  | _ + 1, [] => []
  | n + 1, l :: ls =>
    if jsTrimS l = "" then afterNonblanks (n + 1) ls else afterNonblanks n ls

/-- The index right after the `n`-th non-blank line of a line list. -/
def posAfterNb : Nat → List String → Nat
  | 0, _ => 0
  | _ + 1, [] => 0
  | n + 1, l :: ls =>
    1 + posAfterNb (if jsTrimS l = "" then n + 1 else n) ls

/-! ## `formatDate` (route.ts lines 75–101) -/

/-- The month-name table of `formatDate`. -/
def monthNames : List String :=
  ["Jan", "Feb", "Mar", "Apr", "May", "Jun",
   "Jul", "Aug", "Sep", "Oct", "Nov", "Dec"]

/-- The strict date-token shape `^\d{2}\/\d{4}$`. -/
def isMMYYYY (cs : List Char) : Bool :=
  match cs with
  | [m1, m2, s, y1, y2, y3, y4] =>
    m1.isDigit && m2.isDigit && s = '/' && y1.isDigit && y2.isDigit &&
    y3.isDigit && y4.isDigit
  | _ => false

/-- Numeric value of a two-character decimal digit string (JS `parseInt`
on the month part, which is always exactly two digits here). -/
def twoDigitVal (a b : Char) : Nat :=
  (a.toNat - '0'.toNat) * 10 + (b.toNat - '0'.toNat)

/-- Rewrite one date token: `MM/YYYY ↦ Mon YYYY`; anything else unchanged.
JS indexing `monthNames[monthIndex]` out of range yields `undefined`,
which the template literal renders as the string `"undefined"`. -/
def formatPart (cs : List Char) : List Char :=
  match cs with
  | [m1, m2, _, y1, y2, y3, y4] =>
    if isMMYYYY cs then
      let idx : Int := (twoDigitVal m1 m2 : Int) - 1
      let nm : String :=
        if idx < 0 then "undefined"
        else (monthNames.get? idx.toNat).getD "undefined"
      nm.data ++ ' ' :: [y1, y2, y3, y4]
    else cs
  | _ => cs

/-- A dash character of the splitting class `[–-]` (en dash or hyphen). -/
def isDash (c : Char) : Bool := c = '–' || c = '-'

/-- `formatDate` from the source: if the input contains a dash, split at
dashes, trim each part, rewrite `MM/YYYY` parts, and rejoin with `" – "`;
a dash-free input is rewritten only if it is itself `MM/YYYY`; any other
input is returned unchanged. -/
def formatDate (dateStr : String) : String :=
  let cs := dateStr.data
  if cs.any (fun c => c = '–') || cs.any (fun c => c = '-') then
    String.intercalate " – "
      (((splitP isDash cs).map (fun part => jsTrim part)).map
        fun part => ofChars (formatPart part))
  else if isMMYYYY cs then ofChars (formatPart cs)
  else dateStr

/-! ## `wrapText` (route.ts lines 104–120) -/

/-- Width of a character list at a font (per-character advance widths)
and size, mirroring pdf-lib's `font.widthOfTextAtSize(text, size)`. -/
def widthC (font : Char → ℚ) (cs : List Char) (size : ℚ) : ℚ :=
  ((cs.map font).sum) * size

/-- `font.widthOfTextAtSize(text, size)` at the `String` level. -/
def widthOfTextAtSize (font : Char → ℚ) (text : String) (size : ℚ) : ℚ :=
  widthC font text.data size

/-- The greedy word-packing loop of `wrapText`: `cur` is `currentLine`.
A tentative line that overflows is flushed only when the current line is
non-empty (JS truthiness of `currentLine`); the final non-empty current
line is pushed at the end. -/
def wrapGo (font : Char → ℚ) (size maxWidth : ℚ) :
    List (List Char) → List Char → List (List Char)
  | [], cur => if cur = [] then [] else [cur]
  | w :: ws, cur =>
    let testLine := if cur = [] then w else cur ++ ' ' :: w
    if widthC font testLine size > maxWidth ∧ cur ≠ [] then
      cur :: wrapGo font size maxWidth ws w
    else
      wrapGo font size maxWidth ws testLine

/-- `wrapText(text, font, size, maxWidth)` from the source: split on single
spaces and pack greedily. -/
def wrapText (text : String) (font : Char → ℚ) (size maxWidth : ℚ) :
    List String :=
  (wrapGo font size maxWidth (splitP (fun c => c = ' ') text.data) []).map ofChars

/-- Space-join of a list of word groups (specification helper for
reasoning about the lines `wrapGo` builds). -/
def joinSp : List (List Char) → List Char
  | [] => []
  | [w] => w
  | w :: ws => w ++ ' ' :: joinSp ws

/-- Shape invariant of every line produced by `wrapGo`: a non-empty
space-join of space-free words whose first word is non-empty, and which
either is a single word or fits within `maxWidth`. -/
def goodLine (font : Char → ℚ) (size maxWidth : ℚ) (L : List Char) : Prop :=
  ∃ h t, h ≠ [] ∧ (∀ c ∈ h, ¬c = ' ') ∧ (∀ w ∈ t, ∀ c ∈ w, ¬c = ' ') ∧
    L = joinSp (h :: t) ∧ (t = [] ∨ widthC font L size ≤ maxWidth)

/-! ## The job-experience regexes (route.ts lines 255 and 259)

`/ at .+:.+/.test(line)` (the loose test) and
`line.match(/^(.+?) at (.+?):\s*(.+)$/)` (the strict three-group match),
with JavaScript semantics: `.` does not match line terminators, lazy
groups are tried shortest-first, `\s*` is greedy with backtracking, and
`^`/`$` anchor at the true ends (no `m` flag). -/

/-- After a `" at "` token: does some `.+:.+` match start here?
`hasB` records whether at least one dot-character has been consumed
before the candidate colon. -/
def looseAfterAt : List Char → Bool → Bool
  | [], _ => false
  | c :: r, hasB =>
    if c = ':' && hasB && (match r with | d :: _ => jsDot d | [] => false) then
      true
    else if jsDot c then looseAfterAt r true
    else false

/-- The loose unanchored test `/ at .+:.+/.test(line)`. -/
def looseScan : List Char → Bool
  | [] => false
  | c :: r =>
    (if c = ' ' ∧ r.take 3 = ['a', 't', ' '] then looseAfterAt (r.drop 3) false
     else false) ||
    looseScan r

/-- Backtracking for the greedy `\s*` before the final `(.+)$`:
try stripping `m` whitespace characters, largest first; the remainder must
be a non-empty all-dot-character run reaching the end of the string. -/
def g3OfTailAux : Nat → List Char → Option (List Char)
  | 0, t => if ¬t.isEmpty ∧ t.all jsDot then some t else none
  | m + 1, t =>
    if ¬(t.drop (m + 1)).isEmpty ∧ (t.drop (m + 1)).all jsDot then
      some (t.drop (m + 1))
    else g3OfTailAux m t

/-- Match `\s*(.+)$` against the text after the colon, returning group 3. -/
def g3OfTail (t : List Char) : Option (List Char) :=
  g3OfTailAux (t.takeWhile jsWs).length t

/-- Find the lazy group 2 (`(.+?)` before the colon): grow `accB`
character by character (dot-characters only), and at each colon with a
non-empty `accB` try to finish the match; on failure the colon itself
joins group 2. -/
def strictInner : List Char → List Char → Option (List Char × List Char)
  | _, [] => none
  | accB, c :: r =>
    match (if c = ':' ∧ ¬accB.isEmpty then g3OfTail r else none) with
    | some g3 => some (accB.reverse, g3)
    | none => if jsDot c then strictInner (c :: accB) r else none

/-- Find the lazy group 1: scan positions left to right; at each `" at "`
token preceded by a non-empty all-dot-character prefix, try the rest of
the pattern; otherwise advance one character. -/
def strictOuter : List Char → List Char → Option (List Char × List Char × List Char)
  | _, [] => none
  | accA, c :: r =>
    match
      (if c = ' ' ∧ r.take 3 = ['a', 't', ' '] ∧ ¬accA.isEmpty ∧ accA.all jsDot
       then strictInner [] (r.drop 3) else none) with
    | some (b, g3) => some (accA.reverse, b, g3)
    | none => strictOuter (c :: accA) r

/-- `line.match(/^(.+?) at (.+?):\s*(.+)$/)`: the three captured groups,
or `none` when the regex does not match. -/
def strictMatch (cs : List Char) : Option (List Char × List Char × List Char) :=
  strictOuter [] cs

/-! ## `drawTextWithBold` (route.ts lines 123–146) and its regex split -/

/-- After an opening `"**"`: greedily take the non-asterisk run `[^*]+`
and require a closing `"**"` right after it (the run is bounded by
asterisks on both sides, so the greedy match needs no backtracking). -/
def boldMatchCore (cs : List Char) : Option (List Char × List Char) :=
  match cs.drop (cs.takeWhile fun c => ¬c = '*').length with
  | '*' :: '*' :: rest =>
    if (cs.takeWhile fun c => ¬c = '*').isEmpty then none
    else some ('*' :: '*' :: ((cs.takeWhile fun c => ¬c = '*') ++ ['*', '*']), rest)
  | _ => none

/-- Try to match `\*\*[^*]+\*\*` at the start of the list, returning the
matched text and the remainder. -/
def boldMatchAt (l : List Char) : Option (List Char × List Char) :=
  match l with
  | '*' :: '*' :: cs => boldMatchCore cs
  | _ => none

/-- JS `text.split(/(\*\*[^*]+\*\*)/g)`: pieces between matches and the
captured matches themselves, in order, empty pieces included.
`acc` is the reversed current plain piece. The `fuel` argument makes the
scan structurally recursive; every successful match consumes at least
five characters, so with `fuel = l.length` the zero-fuel branch is
unreachable (see `boldSplitFuel_fuel_free`). -/
def boldSplitFuel : Nat → List Char → List Char → List (List Char)
  | 0, acc, l => [acc.reverse ++ l]
  | _ + 1, acc, [] => [acc.reverse]
  | fuel + 1, acc, c :: cs =>
    match boldMatchAt (c :: cs) with
    | some (m, rest) => acc.reverse :: m :: boldSplitFuel fuel [] rest
    | none => boldSplitFuel fuel (c :: acc) cs

/-- The split of `drawTextWithBold`. -/
def boldSplit (cs : List Char) : List (List Char) := boldSplitFuel cs.length [] cs

/-- Decidable check that no position of `l` starts a `\*\*[^*]+\*\*`
match (the regex of `drawTextWithBold` finds no match anywhere). -/
def noBoldMatch (l : List Char) : Bool :=
  (List.range (l.length + 1)).all fun i => (boldMatchAt (l.drop i)).isNone

/-! ## The drawing model: layout constants, events, state -/

/-- The fixed color palette of `generateResumePdf`. -/
inductive Color
  | black
  | darkBlue
  | mediumBlue
  | gray
  | darkGray
deriving Repr, DecidableEq

/-- One observable pdf-lib effect: a `page.drawText` call (with the page
index it lands on, position, text, size, the font used — recorded as a
bold flag — and color), the contact divider `page.drawLine`, or a
`pdfDoc.addPage` call. -/
inductive Ev
  | drawText (page : ℕ) (x y : ℚ) (text : String) (size : ℚ) (bold : Bool)
      (color : Color)
  | drawLine (page : ℕ) (y : ℚ)
  | newPage
deriving Repr, DecidableEq

/-- Is the event a `drawText`? -/
def Ev.isDrawText : Ev → Bool
  | .drawText .. => true
  | _ => false

/-- The text of a `drawText` event. -/
def Ev.textOf : Ev → Option String
  | .drawText _ _ _ t _ _ _ => some t
  | _ => none

/-- The geometry and typography constants of `generateResumePdf`
(route.ts lines 165–183), as exact rationals. -/
def MARGIN_TOP : ℚ := 72
def MARGIN_BOTTOM : ℚ := 50
def MARGIN_LEFT : ℚ := 50
def MARGIN_RIGHT : ℚ := 50
def PAGE_WIDTH : ℚ := 595
def PAGE_HEIGHT : ℚ := 842
def CONTENT_WIDTH : ℚ := PAGE_WIDTH - MARGIN_LEFT - MARGIN_RIGHT
def NAME_SIZE : ℚ := 24
def CONTACT_SIZE : ℚ := 9
def SECTION_HEADER_SIZE : ℚ := 14
def BODY_SIZE : ℚ := 11
def NAME_LINE_HEIGHT : ℚ := NAME_SIZE * 0.8
def CONTACT_LINE_HEIGHT : ℚ := CONTACT_SIZE * 1.5
def SECTION_LINE_HEIGHT : ℚ := SECTION_HEADER_SIZE * 1.5
def BODY_LINE_HEIGHT : ℚ := BODY_SIZE * 1.4

/-- Mutable layout state of `generateResumePdf`: the current page index
(`page` variable), the vertical cursor `y`, and the `inSkillsSection`
flag. -/
structure BState where
  page : ℕ
  y : ℚ
  inSkills : Bool
deriving Repr, DecidableEq

/-- The repeated `if (y < MARGIN_BOTTOM) { page = pdfDoc.addPage(...); y =
PAGE_HEIGHT - MARGIN_TOP; }` fragment. -/
def rollCheck (st : BState) : BState × List Ev :=
  if st.y < MARGIN_BOTTOM then
    ({ st with page := st.page + 1, y := PAGE_HEIGHT - MARGIN_TOP }, [Ev.newPage])
  else (st, [])

/-- Draw a list of wrapped lines: one `drawText` per line, cursor advance
by `lh`, page-roll check after each advance (the common loop shape of the
section/job/skills branches). -/
def drawBlock (size lh x : ℚ) (bold : Bool) (color : Color) :
    BState → List String → BState × List Ev
  | st, [] => (st, [])
  | st, l :: ls =>
    let ev := Ev.drawText st.page x st.y l size bold color
    let p1 := rollCheck { st with y := st.y - lh }
    let p2 := drawBlock size lh x bold color p1.1 ls
    (p2.1, ev :: (p1.2 ++ p2.2))

/-- Draw a list of wrapped lines with no page-roll check (the name and
contact loops at route.ts lines 192–195 and 212–215). -/
def drawBlockNoRoll (size lh x : ℚ) (bold : Bool) (color : Color) :
    BState → List String → BState × List Ev
  | st, [] => (st, [])
  | st, l :: ls =>
    let ev := Ev.drawText st.page x st.y l size bold color
    let p2 := drawBlockNoRoll size lh x bold color { st with y := st.y - lh } ls
    (p2.1, ev :: p2.2)

/-- The run-drawing loop of `drawTextWithBold`: each part that both starts
and ends with `"**"` is drawn in the bold font with the markers sliced
off; every other part is drawn verbatim in the plain font; `offsetX`
advances by the measured width of what was drawn. -/
def drawBoldGo (page : ℕ) (y : ℚ) (font fontBold : Char → ℚ) (size : ℚ)
    (color : Color) : List (List Char) → ℚ → List Ev
  | [], _ => []
  | part :: parts, offsetX =>
    if part.take 2 = ['*', '*'] ∧ part.reverse.take 2 = ['*', '*'] then
      let content := (part.drop 2).take (part.length - 4)
      Ev.drawText page offsetX y (ofChars content) size true color ::
        drawBoldGo page y font fontBold size color parts
          (offsetX + widthC fontBold content size)
    else
      Ev.drawText page offsetX y (ofChars part) size false color ::
        drawBoldGo page y font fontBold size color parts
          (offsetX + widthC font part size)

/-- `drawTextWithBold(page, text, x, y, font, fontBold, size, color)`
from the source. -/
def drawTextWithBold (page : ℕ) (text : String) (x y : ℚ)
    (font fontBold : Char → ℚ) (size : ℚ) (color : Color) : List Ev :=
  drawBoldGo page y font fontBold size color (boldSplit text.data) x

/-- Draw a list of wrapped plain-body lines through `drawTextWithBold`,
with cursor advance and page-roll check after each line (route.ts lines
319–327). -/
def drawPlainBlock (font fontBold : Char → ℚ) :
    BState → List String → BState × List Ev
  | st, [] => (st, [])
  | st, l :: ls =>
    let evs := drawTextWithBold st.page l (MARGIN_LEFT + 10) st.y font fontBold
      BODY_SIZE Color.black
    let p1 := rollCheck { st with y := st.y - BODY_LINE_HEIGHT }
    let p2 := drawPlainBlock font fontBold p1.1 ls
    (p2.1, evs ++ p1.2 ++ p2.2)

/-- One iteration of the body loop of `generateResumePdf` (route.ts lines
232–335): trim the line; blank lines advance the cursor by 6 and
`continue`; otherwise classify (section header / job experience / skills
category / plain body), draw, and run the end-of-iteration page check. -/
def bodyStep (font fontBold : Char → ℚ) (st : BState) (raw : String) :
    BState × List Ev :=
  let line := ofChars (jsTrim raw.data)
  if line = "" then ({ st with y := st.y - 6 }, [])
  else
    let p :=
      if endsWithColon line then
        let stA : BState := { st with y := st.y - 12 }
        let p1 := drawBlock SECTION_HEADER_SIZE SECTION_LINE_HEIGHT MARGIN_LEFT
          true Color.darkBlue stA (wrapText line fontBold SECTION_HEADER_SIZE CONTENT_WIDTH)
        ({ p1.1 with
            inSkills := if jsToLower line = "skills:" then true else p1.1.inSkills },
          p1.2)
      else if looseScan line.data then
        match strictMatch line.data with
        | some g =>
          let stA : BState := { st with y := st.y - 8 }
          let p1 := drawBlock (BODY_SIZE + 1) (BODY_LINE_HEIGHT + 2)
            (MARGIN_LEFT + 10) true Color.mediumBlue stA
            (wrapText (ofChars (jsTrim g.1)) fontBold (BODY_SIZE + 1)
              (CONTENT_WIDTH - 10))
          let p2 := drawBlock BODY_SIZE BODY_LINE_HEIGHT (MARGIN_LEFT + 10)
            false Color.gray p1.1
            (wrapText (ofChars (jsTrim g.2.1)) font BODY_SIZE (CONTENT_WIDTH - 10))
          let p3 := drawBlock (BODY_SIZE - 1) (BODY_LINE_HEIGHT - 2)
            (MARGIN_LEFT + 10) false Color.gray p2.1
            (wrapText (formatDate (ofChars (jsTrim g.2.2))) font (BODY_SIZE - 1)
              (CONTENT_WIDTH - 10))
          ({ p3.1 with y := p3.1.y - 4 }, p1.2 ++ p2.2 ++ p3.2)
        | none => (st, [])
      else if line.data.take 1 = ['·'] then
        drawBlock (BODY_SIZE + 1) (BODY_LINE_HEIGHT + 2) (MARGIN_LEFT + 10)
          true Color.mediumBlue st
          (wrapText line fontBold (BODY_SIZE + 1) (CONTENT_WIDTH - 20))
      else
        drawPlainBlock font fontBold st
          (wrapText line font BODY_SIZE (CONTENT_WIDTH - 10))
    let p2 := rollCheck p.1
    (p2.1, p.2 ++ p2.2)

/-- `generateResumePdf` as an event trace: parse the header, draw the
name block (uppercased, no page checks), the joined contact line, the
divider rule, then fold the body loop over the body lines, and finally
the (unreachable) trailing-skills block. The initial `pdfDoc.addPage`
is the leading `newPage` event. -/
def generateResumePdf (resumeText : String) (font fontBold : Char → ℚ) :
    List Ev :=
  let r := parseResume resumeText
  let st0 : BState := { page := 0, y := PAGE_HEIGHT - MARGIN_TOP, inSkills := false }
  let pName :=
    if r.name.getD "" ≠ "" then
      let p := drawBlockNoRoll NAME_SIZE NAME_LINE_HEIGHT MARGIN_LEFT true
        Color.darkBlue st0
        (wrapText (jsToUpper (r.name.getD "")) fontBold NAME_SIZE CONTENT_WIDTH)
      ({ p.1 with y := p.1.y - 2 }, p.2)
    else ({ st0 with y := st0.y - NAME_LINE_HEIGHT }, ([] : List Ev))
  let contactParts :=
    ([r.location, r.phone, r.email, r.linkedin].filterMap id).filter
      fun s => s ≠ ""
  let pContact :=
    if contactParts ≠ [] then
      let contactLine := String.intercalate " • " contactParts
      let p := drawBlockNoRoll CONTACT_SIZE CONTACT_LINE_HEIGHT MARGIN_LEFT
        false Color.darkGray pName.1
        (wrapText contactLine font CONTACT_SIZE CONTENT_WIDTH)
      ({ p.1 with y := p.1.y - 4 }, p.2)
    else (pName.1, ([] : List Ev))
  let lineEv := Ev.drawLine pContact.1.page pContact.1.y
  let stLine : BState := { pContact.1 with y := pContact.1.y - 16 }
  let pBody := (jsSplitNl r.body).foldl
    (fun acc l =>
      let q := bodyStep font fontBold acc.1 l
      (q.1, acc.2 ++ q.2))
    (stLine, ([] : List Ev))
  let skills : List String := []
  let pSkills :=
    if pBody.1.inSkills ∧ 0 < skills.length then
      drawBlock BODY_SIZE BODY_LINE_HEIGHT (MARGIN_LEFT + 20) false
        Color.darkGray pBody.1
        (wrapText (String.intercalate " " skills) font BODY_SIZE
          (CONTENT_WIDTH - 20))
    else (pBody.1, ([] : List Ev))
  Ev.newPage :: (pName.2 ++ pContact.2 ++ [lineEv] ++ pBody.2 ++ pSkills.2)

/-- Scan an event trace for a `drawText` whose `y` lies below the bottom
margin and that is not immediately preceded by a page allocation; the
Boolean argument records whether the previous event was a `newPage`. -/
def drawBelowMarginNoRoll : Bool → List Ev → Bool
  | _, [] => false
  | _, Ev.newPage :: es => drawBelowMarginNoRoll true es
  | _, Ev.drawLine _ _ :: es => drawBelowMarginNoRoll false es
  | prevRoll, Ev.drawText _ _ y _ _ _ _ :: es =>
    if y < MARGIN_BOTTOM ∧ prevRoll = false then true
    else drawBelowMarginNoRoll false es

/-- A concrete font for witnesses and counterexamples: every glyph
advances half a unit per point of size. -/
def cwHalf : Char → ℚ := fun _ => 1/2

/-- A layout state at the top of a fresh page. -/
def st770 : BState := { page := 0, y := PAGE_HEIGHT - MARGIN_TOP, inSkills := false }

/-- 110 consecutive newline characters. -/
def manyNl : String := ofChars (List.replicate 110 '\n')

/-- Failing input for the page-roll invariant: a six-line header, one body
line, 109 blank body lines (each advancing the cursor by 6 points with no
page check because of the `continue`), then one more body line, which is
drawn below the bottom margin on the same page. -/
def badResumeC1 : String := "h\nN\ne\np\nl\nk\nb" ++ manyNl ++ "x"

end ResumeTailor

namespace ResumeTailor

/-! ## Lemmas about `collectInfo` / `parseResume` -/

theorem nbOf_nil : nbOf [] = [] := rfl

theorem nbOf_cons_blank {l : String} (h : jsTrimS l = "") (ls : List String) :
    nbOf (l :: ls) = nbOf ls := by
  simp [nbOf, List.filter_cons, h]

theorem nbOf_cons_nonblank {l : String} (h : jsTrimS l ≠ "") (ls : List String) :
    nbOf (l :: ls) = jsTrimS l :: nbOf ls := by
  simp [nbOf, List.filter_cons, h]

theorem collectInfo_cons_blank {l : String} {acc : List String}
    (h : jsTrimS l = "") (hlen : acc.length ≠ 6) (ls : List String) (i : Nat) :
    collectInfo (l :: ls) acc i = collectInfo ls acc (i + 1) := by
  simp [collectInfo, h, hlen]

theorem collectInfo_cons_hit {l : String} {acc : List String}
    (h : jsTrimS l ≠ "") (hlen : acc.length + 1 = 6) (ls : List String) (i : Nat) :
    collectInfo (l :: ls) acc i = ((jsTrimS l :: acc).reverse, i + 1) := by
  simp [collectInfo, h, hlen]

theorem collectInfo_cons_miss {l : String} {acc : List String}
    (h : jsTrimS l ≠ "") (hlen : acc.length + 1 ≠ 6) (ls : List String) (i : Nat) :
    collectInfo (l :: ls) acc i = collectInfo ls (jsTrimS l :: acc) (i + 1) := by
  simp [collectInfo, h, hlen]

theorem collectInfo_fst : ∀ (ls acc : List String) (i : Nat),
    acc.length < 6 →
    (collectInfo ls acc i).1 = (acc.reverse ++ nbOf ls).take 6
  | [], acc, i, h => by
    have hle : acc.reverse.length ≤ 6 := by simpa using Nat.le_of_lt h
    simp [collectInfo, nbOf, List.take_of_length_le hle]
  | l :: ls, acc, i, h => by
    by_cases hb : jsTrimS l = ""
    · rw [collectInfo_cons_blank hb (by omega) ls i,
        collectInfo_fst ls acc (i + 1) h, nbOf_cons_blank hb]
    · rw [nbOf_cons_nonblank hb]
      by_cases h6 : acc.length + 1 = 6
      · rw [collectInfo_cons_hit hb h6 ls i]
        have h5 : acc.reverse.length = 5 := by simp; omega
        rw [List.take_append_eq_append_take, List.take_of_length_le (by omega), h5]
        simp
      · rw [collectInfo_cons_miss hb h6 ls i,
          collectInfo_fst ls (jsTrimS l :: acc) (i + 1) (by simp; omega)]
        simp

theorem collectInfo_snd_ge : ∀ (ls acc : List String) (i : Nat),
    acc.length < 6 → 6 ≤ acc.length + (nbOf ls).length →
    (collectInfo ls acc i).2 = i + posAfterNb (6 - acc.length) ls
  | [], acc, _, h, hcnt => by
    rw [nbOf_nil] at hcnt
    simp at hcnt
    omega
  | l :: ls, acc, i, h, hcnt => by
    obtain ⟨n, hn⟩ : ∃ n, 6 - acc.length = n + 1 := ⟨6 - acc.length - 1, by omega⟩
    by_cases hb : jsTrimS l = ""
    · rw [collectInfo_cons_blank hb (by omega) ls i,
        collectInfo_snd_ge ls acc (i + 1) h (by rwa [nbOf_cons_blank hb] at hcnt),
        hn]
      simp only [posAfterNb, if_pos hb]
      omega
    · rw [nbOf_cons_nonblank hb] at hcnt
      by_cases h6 : acc.length + 1 = 6
      · rw [collectInfo_cons_hit hb h6 ls i]
        have h1 : 6 - acc.length = 1 := by omega
        rw [h1]
        simp [posAfterNb, hb]
      · rw [collectInfo_cons_miss hb h6 ls i,
          collectInfo_snd_ge ls (jsTrimS l :: acc) (i + 1) (by simp; omega)
            (by simp at hcnt ⊢; omega), hn]
        simp only [posAfterNb, if_neg hb]
        have h2 : 6 - (jsTrimS l :: acc).length = n := by simp; omega
        rw [h2]
        omega

theorem drop_posAfterNb : ∀ (k : Nat) (ls : List String),
    ls.drop (posAfterNb k ls) = afterNonblanks k ls
  | 0, ls => by simp [posAfterNb, afterNonblanks]
  | k + 1, [] => by simp [posAfterNb, afterNonblanks]
  | k + 1, l :: ls => by
    by_cases hb : jsTrimS l = ""
    · simp only [posAfterNb, afterNonblanks, if_pos hb, Nat.add_comm 1,
        List.drop_succ_cons]
      exact drop_posAfterNb (k + 1) ls
    · simp only [posAfterNb, afterNonblanks, if_neg hb, Nat.add_comm 1,
        List.drop_succ_cons]
      exact drop_posAfterNb k ls

theorem collectInfo_lt : ∀ (ls acc : List String) (i : Nat),
    acc.length + (nbOf ls).length < 6 →
    collectInfo ls acc i = (acc.reverse ++ nbOf ls, 0)
  | [], acc, _, _ => by simp [collectInfo, nbOf]
  | l :: ls, acc, i, h => by
    by_cases hb : jsTrimS l = ""
    · rw [nbOf_cons_blank hb] at h ⊢
      rw [collectInfo_cons_blank hb (by omega) ls i]
      exact collectInfo_lt ls acc (i + 1) h
    · rw [nbOf_cons_nonblank hb] at h ⊢
      rw [collectInfo_cons_miss hb (by simp at h; omega) ls i,
        collectInfo_lt ls (jsTrimS l :: acc) (i + 1) (by simp at h ⊢; omega)]
      simp

theorem head_dropWhile_blank : ∀ ls : List String,
    ((ls.dropWhile fun l => jsTrimS l = "").head?.map jsTrimS) = (nbOf ls).head?
  | [] => rfl
  | l :: ls => by
    by_cases hb : jsTrimS l = ""
    · rw [nbOf_cons_blank hb]
      simpa [List.dropWhile_cons, hb] using head_dropWhile_blank ls
    · rw [nbOf_cons_nonblank hb]
      simp [List.dropWhile_cons, hb]

theorem get?_take_of_lt' {α : Type} (l : List α) {m n : Nat} (h : m < n) :
    (l.take n).get? m = l.get? m := by
  simp [List.get?_eq_getElem?, List.getElem?_take_of_lt h]

/-- Claim C7: for every input text with at least six non-blank (post-trim)
lines, `parseResume` maps the first six trimmed non-blank lines, in fixed
order, to headline, name, email, phone, location, linkedin — regardless of
surrounding blank lines — and the returned body begins at the seventh
non-blank line (the remainder after the sixth non-blank line with leading
blank lines skipped). -/
theorem c7_header_extraction (s : String)
    (h : 6 ≤ (nbOf (jsSplitNl s)).length) :
    (parseResume s).headline = (nbOf (jsSplitNl s)).get? 0 ∧
    (parseResume s).name = (nbOf (jsSplitNl s)).get? 1 ∧
    (parseResume s).email = (nbOf (jsSplitNl s)).get? 2 ∧
    (parseResume s).phone = (nbOf (jsSplitNl s)).get? 3 ∧
    (parseResume s).location = (nbOf (jsSplitNl s)).get? 4 ∧
    (parseResume s).linkedin = (nbOf (jsSplitNl s)).get? 5 ∧
    (parseResume s).body =
      joinNl ((afterNonblanks 6 (jsSplitNl s)).dropWhile fun l => jsTrimS l = "") := by
  have hfst : (collectInfo (jsSplitNl s) [] 0).1 = (nbOf (jsSplitNl s)).take 6 := by
    simpa using collectInfo_fst (jsSplitNl s) [] 0 (by norm_num)
  have hsnd : (collectInfo (jsSplitNl s) [] 0).2 = posAfterNb 6 (jsSplitNl s) := by
    simpa using collectInfo_snd_ge (jsSplitNl s) [] 0 (by norm_num) (by simpa using h)
  simp only [parseResume]
  rw [hfst, hsnd, drop_posAfterNb]
  refine ⟨?_, ?_, ?_, ?_, ?_, ?_, rfl⟩ <;> exact get?_take_of_lt' _ (by omega)

theorem c7_header_extraction_witness :
    6 ≤ (nbOf (jsSplitNl "h\nN\ne\np\nl\nk\n\nB1\nB2")).length ∧
    ((parseResume "h\nN\ne\np\nl\nk\n\nB1\nB2").headline =
        (nbOf (jsSplitNl "h\nN\ne\np\nl\nk\n\nB1\nB2")).get? 0 ∧
      (parseResume "h\nN\ne\np\nl\nk\n\nB1\nB2").name =
        (nbOf (jsSplitNl "h\nN\ne\np\nl\nk\n\nB1\nB2")).get? 1 ∧
      (parseResume "h\nN\ne\np\nl\nk\n\nB1\nB2").email =
        (nbOf (jsSplitNl "h\nN\ne\np\nl\nk\n\nB1\nB2")).get? 2 ∧
      (parseResume "h\nN\ne\np\nl\nk\n\nB1\nB2").phone =
        (nbOf (jsSplitNl "h\nN\ne\np\nl\nk\n\nB1\nB2")).get? 3 ∧
      (parseResume "h\nN\ne\np\nl\nk\n\nB1\nB2").location =
        (nbOf (jsSplitNl "h\nN\ne\np\nl\nk\n\nB1\nB2")).get? 4 ∧
      (parseResume "h\nN\ne\np\nl\nk\n\nB1\nB2").linkedin =
        (nbOf (jsSplitNl "h\nN\ne\np\nl\nk\n\nB1\nB2")).get? 5 ∧
      (parseResume "h\nN\ne\np\nl\nk\n\nB1\nB2").body =
        joinNl ((afterNonblanks 6 (jsSplitNl "h\nN\ne\np\nl\nk\n\nB1\nB2")).dropWhile
          fun l => jsTrimS l = "")) :=
  ⟨by decide, c7_header_extraction "h\nN\ne\np\nl\nk\n\nB1\nB2" (by decide)⟩

/-- Claim C10: for every input text with at least one but fewer than six
non-blank (post-trim) lines, the six-line collection loop never sets
`bodyStart`, so the returned body is the whole input from its first
non-blank line onward (joined by newlines) and repeats the very lines
already assigned to the header fields (its first line trims to the
assigned headline). -/
theorem c10_short_header_body_repeats (s : String)
    (h1 : 1 ≤ (nbOf (jsSplitNl s)).length)
    (h5 : (nbOf (jsSplitNl s)).length < 6) :
    (parseResume s).body =
      joinNl ((jsSplitNl s).dropWhile fun l => jsTrimS l = "") ∧
    (parseResume s).headline = (nbOf (jsSplitNl s)).get? 0 ∧
    (((jsSplitNl s).dropWhile fun l => jsTrimS l = "").head?.map jsTrimS) =
      (parseResume s).headline ∧
    (parseResume s).headline.isSome = true := by
  have hc : collectInfo (jsSplitNl s) [] 0 = (nbOf (jsSplitNl s), 0) := by
    simpa using collectInfo_lt (jsSplitNl s) [] 0 (by simpa using h5)
  simp only [parseResume, hc, List.drop_zero]
  refine ⟨trivial, trivial, ?_, ?_⟩
  · rw [head_dropWhile_blank]
    cases hnb : nbOf (jsSplitNl s) with
    | nil => simp [hnb] at h1
    | cons a t => simp
  · cases hnb : nbOf (jsSplitNl s) with
    | nil => simp [hnb] at h1
    | cons a t => simp

theorem c10_short_header_body_repeats_witness :
    (1 ≤ (nbOf (jsSplitNl "a\nb")).length ∧ (nbOf (jsSplitNl "a\nb")).length < 6) ∧
    ((parseResume "a\nb").body =
        joinNl ((jsSplitNl "a\nb").dropWhile fun l => jsTrimS l = "") ∧
      (parseResume "a\nb").headline = (nbOf (jsSplitNl "a\nb")).get? 0 ∧
      (((jsSplitNl "a\nb").dropWhile fun l => jsTrimS l = "").head?.map jsTrimS) =
        (parseResume "a\nb").headline ∧
      (parseResume "a\nb").headline.isSome = true) :=
  ⟨⟨by decide, by decide⟩,
    c10_short_header_body_repeats "a\nb" (by decide) (by decide)⟩

/-- Claim C3 counterexample: `"foo-bar"` contains no digit at all (so no
part of it matches the strict `MM/YYYY` pattern — in particular every
trimmed dash-part fails it), yet `formatDate` does not return it
unchanged: the dash branch re-joins the trimmed parts with `" – "`,
giving `"foo – bar"`. -/
theorem c3_counterexample :
    ("foo-bar".data.all fun c => !c.isDigit) = true ∧
    (((splitP isDash "foo-bar".data).map fun p => jsTrim p).all
      fun p => !isMMYYYY p) = true ∧
    formatDate "foo-bar" = "foo – bar" ∧
    formatDate "foo-bar" ≠ "foo-bar" := by decide

/-- Claim C3 (amended): `formatDate` is a total function (never throws),
and on every input of unrecognized shape that contains no en dash and no
hyphen it returns the input unchanged; inputs containing a dash are
re-joined from their trimmed dash-parts with `" – "`, which can alter
them. -/
theorem c3_no_dash_passthrough (s : String)
    (hdash : (s.data.any (fun c => c = '–') || s.data.any fun c => c = '-') = false)
    (hshape : isMMYYYY s.data = false) :
    formatDate s = s := by
  simp only [formatDate, hdash, hshape]
  simp

theorem c3_no_dash_passthrough_witness :
    (("abc".data.any (fun c => c = '–') || "abc".data.any fun c => c = '-') = false ∧
      isMMYYYY "abc".data = false) ∧
    formatDate "abc" = "abc" :=
  ⟨⟨by decide, by decide⟩, c3_no_dash_passthrough "abc" (by decide) (by decide)⟩

unseal Rat.add Rat.mul Rat.inv Rat.sub Rat.ofScientific in
/-- Claim C4: the line `"Role at Company: 06/2022 - Current"` is classified
as a job entry (it does not end with a colon, the loose test matches, and
the strict pattern matches with title `"Role"`, company `"Company"`,
period `"06/2022 - Current"`), and `formatDate` turns the period into
`"Jun 2022 – Current"`; accordingly the drawn job-entry texts are exactly
those three strings. -/
theorem c4_job_entry_scenario :
    endsWithColon "Role at Company: 06/2022 - Current" = false ∧
    looseScan "Role at Company: 06/2022 - Current".data = true ∧
    strictMatch "Role at Company: 06/2022 - Current".data =
      some ("Role".data, "Company".data, "06/2022 - Current".data) ∧
    formatDate "06/2022 - Current" = "Jun 2022 – Current" ∧
    ((bodyStep cwHalf cwHalf st770 "Role at Company: 06/2022 - Current").2.filterMap
      Ev.textOf) = ["Role", "Company", "Jun 2022 – Current"] := by decide

set_option maxRecDepth 100000 in
unseal Rat.add Rat.mul Rat.inv Rat.sub Rat.ofScientific in
/-- Claim C1 (refuted on the code — the spec's page-roll invariant is the
intent, the code violates it): on `badResumeC1` the engine draws the body
line `"x"` at `y = 45.9`, below the bottom margin of `50`, on the first
page, with no page allocated before that draw. The page check runs only
after each draw, and blank body lines move the cursor down by 6 with no
check at all (`continue` also skips the end-of-iteration check), so the
cursor can sit below `MARGIN_BOTTOM + 6` when a draw happens. The full
event trace is computed explicitly. -/
theorem c1_draw_below_margin_without_roll :
    generateResumePdf badResumeC1 cwHalf cwHalf =
      [Ev.newPage,
       Ev.drawText 0 50 770 "N" 24 true Color.darkBlue,
       Ev.drawText 0 50 (3744 / 5) "l • p • e • k" 9 false Color.darkGray,
       Ev.drawLine 0 (7313 / 10),
       Ev.drawText 0 60 (7153 / 10) "b" 11 false Color.black,
       Ev.drawText 0 60 (459 / 10) "x" 11 false Color.black,
       Ev.newPage] ∧
    ((459 : ℚ) / 10 < MARGIN_BOTTOM) ∧
    drawBelowMarginNoRoll true (generateResumePdf badResumeC1 cwHalf cwHalf) =
      true := by decide

/-! ## Lemmas about `wrapGo` / `wrapText` -/

theorem wrapGo_width_le (font : Char → ℚ) (size maxWidth : ℚ) :
    ∀ (ws : List (List Char)) (cur : List Char),
    (∀ w ∈ ws, widthC font w size ≤ maxWidth) →
    (cur = [] ∨ widthC font cur size ≤ maxWidth) →
    ∀ L ∈ wrapGo font size maxWidth ws cur, widthC font L size ≤ maxWidth
  | [], cur, _, hcur, L, hL => by
    simp only [wrapGo] at hL
    split at hL
    · simp at hL
    · rename_i hne
      rw [List.mem_singleton] at hL
      subst hL
      rcases hcur with h | h
      · exact absurd h hne
      · exact h
  | w :: ws, cur, hws, hcur, L, hL => by
    have hw : widthC font w size ≤ maxWidth := hws w (by simp)
    have hws' : ∀ v ∈ ws, widthC font v size ≤ maxWidth := fun v hv =>
      hws v (by simp [hv])
    simp only [wrapGo] at hL
    by_cases hce : cur = []
    · rw [if_neg (by simp [hce])] at hL
      rw [if_pos hce] at hL
      exact wrapGo_width_le font size maxWidth ws w hws' (Or.inr hw) L hL
    · rw [if_neg hce] at hL
      rcases hcur with h | h
      · exact absurd h hce
      · by_cases hover : widthC font (cur ++ ' ' :: w) size > maxWidth
        · rw [if_pos ⟨hover, hce⟩] at hL
          rcases List.mem_cons.mp hL with rfl | hL'
          · exact h
          · exact wrapGo_width_le font size maxWidth ws w hws' (Or.inr hw) L hL'
        · rw [if_neg (by tauto)] at hL
          exact wrapGo_width_le font size maxWidth ws (cur ++ ' ' :: w) hws'
            (Or.inr (le_of_not_lt hover)) L hL

/-- Claim C5: whenever `maxWidth` is at least the measured width of every
single space-delimited word of the text (at the given font and size),
every line returned by `wrapText` measures at most `maxWidth`. -/
theorem c5_wrap_width_bound (text : String) (font : Char → ℚ) (size maxWidth : ℚ)
    (h : ∀ w ∈ splitP (fun c => c = ' ') text.data, widthC font w size ≤ maxWidth) :
    ∀ L ∈ wrapText text font size maxWidth,
      widthOfTextAtSize font L size ≤ maxWidth := by
  intro L hL
  simp only [wrapText, List.mem_map] at hL
  obtain ⟨lc, hlc, rfl⟩ := hL
  exact wrapGo_width_le font size maxWidth _ [] h (Or.inl rfl) lc hlc

unseal Rat.add Rat.mul Rat.inv Rat.sub Rat.ofScientific in
theorem c5_wrap_width_bound_witness :
    (∀ w ∈ splitP (fun c => c = ' ') "aa bb".data, widthC (fun _ => 1) w 1 ≤ 2) ∧
    widthOfTextAtSize (fun _ => 1) "aa" 1 ≤ 2 :=
  ⟨by decide,
    c5_wrap_width_bound "aa bb" (fun _ => 1) 1 2 (by decide) "aa" (by decide)⟩

/-! ## Structure of `splitP` and `joinSp` -/

theorem splitP_ne_nil (p : Char → Bool) : ∀ l : List Char, splitP p l ≠ []
  | [] => by simp [splitP]
  | c :: cs => by
    simp only [splitP]
    split
    · simp
    · split <;> simp

theorem splitP_no_sep (p : Char → Bool) : ∀ (l : List Char),
    ∀ w ∈ splitP p l, ∀ c ∈ w, p c = false
  | [], w, hw, c, hc => by
    simp [splitP] at hw
    subst hw
    simp at hc
  | a :: cs, w, hw, c, hc => by
    simp only [splitP] at hw
    by_cases hp : p a
    · rw [if_pos hp] at hw
      rcases List.mem_cons.mp hw with rfl | hw'
      · simp at hc
      · exact splitP_no_sep p cs w hw' c hc
    · rw [if_neg hp] at hw
      rcases hsp : splitP p cs with _ | ⟨v, vs⟩
      · exact absurd hsp (splitP_ne_nil p cs)
      · rw [hsp] at hw
        rcases List.mem_cons.mp hw with rfl | hw'
        · rcases List.mem_cons.mp hc with rfl | hc'
          · simpa using hp
          · exact splitP_no_sep p cs v (by rw [hsp]; simp) c hc'
        · exact splitP_no_sep p cs w (by rw [hsp]; simp [hw']) c hc

theorem splitP_of_no_sep (p : Char → Bool) : ∀ (w : List Char),
    (∀ c ∈ w, p c = false) → splitP p w = [w]
  | [], _ => rfl
  | c :: w, h => by
    have hc : p c = false := h c (by simp)
    simp only [splitP, hc]
    rw [if_neg (by simp)]
    rw [splitP_of_no_sep p w fun d hd => h d (by simp [hd])]

theorem splitP_append_sep (p : Char → Bool) (s : Char) (hs : p s = true) :
    ∀ (w rest : List Char), (∀ c ∈ w, p c = false) →
    splitP p (w ++ s :: rest) = w :: splitP p rest
  | [], rest, _ => by simp [splitP, hs]
  | c :: w, rest, h => by
    have hc : p c = false := h c (by simp)
    have ih := splitP_append_sep p s hs w rest fun d hd => h d (by simp [hd])
    rw [List.cons_append]
    simp only [splitP, hc]
    rw [if_neg (by simp), ih]

theorem joinSp_cons_cons (w v : List Char) (ws : List (List Char)) :
    joinSp (w :: v :: ws) = w ++ ' ' :: joinSp (v :: ws) := rfl

theorem joinSp_cons_head (c : Char) (v : List Char) : ∀ vs : List (List Char),
    joinSp ((c :: v) :: vs) = c :: joinSp (v :: vs)
  | [] => rfl
  | _ :: _ => rfl

theorem splitP_joinSp : ∀ (g : List (List Char)), g ≠ [] →
    (∀ w ∈ g, ∀ c ∈ w, ¬c = ' ') →
    splitP (fun c => c = ' ') (joinSp g) = g
  | [], hne, _ => absurd rfl hne
  | [w], _, hsf => by
    simp only [joinSp]
    exact splitP_of_no_sep _ w fun c hc => by
      simpa using hsf w (by simp) c hc
  | w :: v :: ws, _, hsf => by
    rw [joinSp_cons_cons,
      splitP_append_sep (fun c => c = ' ') ' ' (by simp) w (joinSp (v :: ws))
        (fun c hc => by simpa using hsf w (by simp) c hc),
      splitP_joinSp (v :: ws) (by simp) fun u hu c hc =>
        hsf u (by simp [List.mem_cons.mp hu]) c hc]

theorem joinSp_splitP : ∀ l : List Char,
    joinSp (splitP (fun c => c = ' ') l) = l
  | [] => rfl
  | c :: cs => by
    simp only [splitP]
    by_cases hc : c = ' '
    · rw [if_pos (by simp [hc])]
      rcases hsp : splitP (fun c => c = ' ') cs with _ | ⟨v, vs⟩
      · exact absurd hsp (splitP_ne_nil _ cs)
      · have := joinSp_splitP cs
        rw [hsp] at this
        rw [joinSp_cons_cons, this, hc]
        simp
    · rw [if_neg (by simp [hc])]
      rcases hsp : splitP (fun c => c = ' ') cs with _ | ⟨v, vs⟩
      · exact absurd hsp (splitP_ne_nil _ cs)
      · have := joinSp_splitP cs
        rw [hsp] at this
        rw [joinSp_cons_head, this]

theorem joinSp_snoc (w : List Char) : ∀ (g : List (List Char)), g ≠ [] →
    joinSp (g ++ [w]) = joinSp g ++ ' ' :: w
  | [], hne => absurd rfl hne
  | [x], _ => rfl
  | x :: y :: g, _ => by
    have ih := joinSp_snoc w (y :: g) (by simp)
    simp only [List.cons_append] at ih ⊢
    rw [joinSp_cons_cons, joinSp_cons_cons, ih]
    simp

theorem joinSp_merge (a b : List Char) : ∀ l : List (List Char),
    joinSp ((a ++ ' ' :: b) :: l) = joinSp (a :: b :: l)
  | [] => rfl
  | v :: vs => by
    rw [joinSp_cons_cons (a ++ ' ' :: b) v vs, joinSp_cons_cons a b (v :: vs),
      joinSp_cons_cons b v vs]
    simp

/-! ## Width arithmetic and the no-flush lemma -/

theorem widthC_append (font : Char → ℚ) (a b : List Char) (size : ℚ) :
    widthC font (a ++ b) size = widthC font a size + widthC font b size := by
  simp [widthC, add_mul]

theorem widthC_nonneg {font : Char → ℚ} (hf : ∀ c, 0 ≤ font c) {size : ℚ}
    (hs : 0 ≤ size) (l : List Char) : 0 ≤ widthC font l size := by
  refine mul_nonneg (List.sum_nonneg ?_) hs
  intro x hx
  obtain ⟨c, -, rfl⟩ := List.mem_map.mp hx
  exact hf c

theorem widthC_le_append {font : Char → ℚ} (hf : ∀ c, 0 ≤ font c) {size : ℚ}
    (hs : 0 ≤ size) (a b : List Char) :
    widthC font a size ≤ widthC font (a ++ b) size := by
  rw [widthC_append]
  have := widthC_nonneg hf hs b
  linarith

theorem joinSp_take_prefix (c : List Char) (ws : List (List Char)) (k : Nat) :
    ∃ rest, joinSp (c :: ws) = joinSp (c :: ws.take k) ++ rest := by
  induction ws generalizing c k with
  | nil => exact ⟨[], by simp⟩
  | cons w ws ih =>
    cases k with
    | zero =>
      refine ⟨' ' :: joinSp (w :: ws), ?_⟩
      rw [List.take_zero, joinSp_cons_cons]
      rfl
    | succ k =>
      obtain ⟨rest, hrest⟩ := ih (c ++ ' ' :: w) k
      refine ⟨rest, ?_⟩
      rw [← joinSp_merge, hrest, List.take_succ_cons, ← joinSp_merge]

theorem wrapGo_noflush (font : Char → ℚ) (size maxWidth : ℚ) :
    ∀ (ws : List (List Char)) (cur : List Char), cur ≠ [] →
    (∀ k, widthC font (joinSp (cur :: ws.take k)) size ≤ maxWidth) →
    wrapGo font size maxWidth ws cur = [joinSp (cur :: ws)]
  | [], cur, hne, _ => by simp [wrapGo, hne, joinSp]
  | w :: ws, cur, hne, hfit => by
    have h1 : widthC font (cur ++ ' ' :: w) size ≤ maxWidth := by
      have := hfit 1
      rwa [List.take_succ_cons, List.take_zero, joinSp_cons_cons] at this
    simp only [wrapGo]
    rw [if_neg hne, if_neg (by rw [not_and]; intro hgt; exact absurd h1 (by simpa using hgt))]
    rw [wrapGo_noflush font size maxWidth ws (cur ++ ' ' :: w) (by simp)
      (fun k => by rw [joinSp_merge]; exact (by simpa [List.take_succ_cons] using hfit (k + 1)))]
    rw [joinSp_merge]

/-- Every line produced by `wrapGo` satisfies `goodLine`, provided the
incoming words are space-free and the current line satisfies the
invariant. -/
theorem wrapGo_good (font : Char → ℚ) (size maxWidth : ℚ) :
    ∀ (ws : List (List Char)) (cur : List Char),
    (∀ w ∈ ws, ∀ c ∈ w, ¬c = ' ') →
    (cur = [] ∨ goodLine font size maxWidth cur) →
    ∀ L ∈ wrapGo font size maxWidth ws cur, goodLine font size maxWidth L
  | [], cur, _, hcur, L, hL => by
    simp only [wrapGo] at hL
    split at hL
    · simp at hL
    · rename_i hne
      rw [List.mem_singleton] at hL
      subst hL
      exact hcur.resolve_left hne
  | w :: ws, cur, hws, hcur, L, hL => by
    have hwsf : ∀ c ∈ w, ¬c = ' ' := hws w (by simp)
    have hws' : ∀ v ∈ ws, ∀ c ∈ v, ¬c = ' ' := fun v hv => hws v (by simp [hv])
    have hwgood : w = [] ∨ goodLine font size maxWidth w := by
      rcases eq_or_ne w [] with h | h
      · exact Or.inl h
      · exact Or.inr ⟨w, [], h, hwsf, by simp, rfl, Or.inl rfl⟩
    simp only [wrapGo] at hL
    by_cases hce : cur = []
    · rw [if_neg (by simp [hce]), if_pos hce] at hL
      exact wrapGo_good font size maxWidth ws w hws' hwgood L hL
    · rw [if_neg hce] at hL
      obtain ⟨h, t, hhne, hhsf, htsf, heq, hdisj⟩ := hcur.resolve_left hce
      by_cases hover : widthC font (cur ++ ' ' :: w) size > maxWidth
      · rw [if_pos ⟨hover, hce⟩] at hL
        rcases List.mem_cons.mp hL with rfl | hL'
        · exact ⟨h, t, hhne, hhsf, htsf, heq, hdisj⟩
        · exact wrapGo_good font size maxWidth ws w hws' hwgood L hL'
      · rw [if_neg (by tauto)] at hL
        refine wrapGo_good font size maxWidth ws (cur ++ ' ' :: w) hws'
          (Or.inr ⟨h, t ++ [w], hhne, hhsf, ?_, ?_, Or.inr (le_of_not_lt hover)⟩)
          L hL
        · intro v hv c hc
          rcases List.mem_append.mp hv with hv' | hv'
          · exact htsf v hv' c hc
          · rw [List.mem_singleton] at hv'
            subst hv'
            exact hwsf c hc
        · rw [show h :: (t ++ [w]) = (h :: t) ++ [w] by simp,
            joinSp_snoc w (h :: t) (by simp), ← heq]

/-- Claim C6: wrapping is idempotent per produced line — any line `L`
output by `wrapText` (at a font with non-negative glyph widths and a
non-negative size), re-wrapped at the same font, size and `maxWidth`,
comes back as exactly `[L]`. -/
theorem c6_rewrap_idempotent (text L : String) (font : Char → ℚ)
    (size maxWidth : ℚ) (hf : ∀ c, 0 ≤ font c) (hs : 0 ≤ size)
    (hL : L ∈ wrapText text font size maxWidth) :
    wrapText L font size maxWidth = [L] := by
  simp only [wrapText, List.mem_map] at hL
  obtain ⟨lc, hlc, rfl⟩ := hL
  obtain ⟨h, t, hhne, hhsf, htsf, heq, hdisj⟩ :=
    wrapGo_good font size maxWidth _ []
      (fun w hw c hc => by simpa using splitP_no_sep _ text.data w hw c hc)
      (Or.inl rfl) lc hlc
  have hdata : (ofChars lc).data = lc := rfl
  simp only [wrapText, hdata]
  have hsplit : splitP (fun c => c = ' ') lc = h :: t := by
    rw [heq]
    refine splitP_joinSp (h :: t) (by simp) ?_
    intro w hw
    rcases List.mem_cons.mp hw with rfl | hw'
    · exact hhsf
    · exact htsf w hw'
  rw [hsplit]
  have hstep : wrapGo font size maxWidth (h :: t) [] =
      wrapGo font size maxWidth t h := by
    simp only [wrapGo]
    rw [if_neg (by simp)]
    simp
  rw [hstep]
  rcases hdisj with rfl | hwle
  · simp only [wrapGo]
    rw [if_neg hhne]
    simp [heq, joinSp]
  · have hwle' : widthC font (joinSp (h :: t)) size ≤ maxWidth := heq ▸ hwle
    have hfit : ∀ k, widthC font (joinSp (h :: t.take k)) size ≤ maxWidth := by
      intro k
      obtain ⟨rest, hrest⟩ := joinSp_take_prefix h t k
      have hle := widthC_le_append hf hs (joinSp (h :: t.take k)) rest
      rw [← hrest] at hle
      exact le_trans hle hwle'
    rw [wrapGo_noflush font size maxWidth t h hhne hfit, ← heq]
    rfl

unseal Rat.add Rat.mul Rat.inv Rat.sub Rat.ofScientific in
theorem c6_rewrap_idempotent_witness :
    "aa bb" ∈ wrapText "aa bb cc" cwHalf 1 3 ∧
    wrapText "aa bb" cwHalf 1 3 = ["aa bb"] :=
  ⟨by decide,
    c6_rewrap_idempotent "aa bb cc" "aa bb" cwHalf 1 3
      (fun c => by norm_num [cwHalf]) (by norm_num) (by decide)⟩

/-! ## Lemmas about `boldSplit` and `drawTextWithBold` -/

theorem boldSplitFuel_no_match : ∀ (l : List Char) (acc : List Char) (fuel : Nat),
    l.length ≤ fuel → (∀ i, boldMatchAt (l.drop i) = none) →
    boldSplitFuel fuel acc l = [acc.reverse ++ l]
  | _, _, 0, _, _ => rfl
  | [], acc, fuel + 1, _, _ => by simp [boldSplitFuel]
  | c :: cs, acc, fuel + 1, hfuel, hnm => by
    have h0 := hnm 0
    rw [List.drop_zero] at h0
    simp only [boldSplitFuel, h0]
    rw [boldSplitFuel_no_match cs (c :: acc) fuel (by simpa using hfuel)
      fun i => by simpa [List.drop_succ_cons] using hnm (i + 1)]
    simp

theorem noBoldMatch_all (l : List Char) (h : noBoldMatch l = true) :
    ∀ i, boldMatchAt (l.drop i) = none := by
  intro i
  by_cases hi : i ≤ l.length
  · have hmem : i ∈ List.range (l.length + 1) := List.mem_range.mpr (by omega)
    have := List.all_eq_true.mp h i hmem
    exact Option.isNone_iff_eq_none.mp this
  · rw [List.drop_eq_nil_of_le (by omega)]
    rfl

theorem boldSplit_no_match (l : List Char) (h : noBoldMatch l = true) :
    boldSplit l = [l] := by
  unfold boldSplit
  rw [boldSplitFuel_no_match l [] l.length le_rfl (noBoldMatch_all l h)]
  simp

/-- Claim C8 counterexample: the line `"**"` contains no substring matching
`\*\*[^*]+\*\*` (its bold markers are unmatched), yet `drawTextWithBold`
does not treat it as literal plain text: since the single split piece both
starts and ends with `"**"`, it is drawn as one empty BOLD run, and the
concatenation of the drawn texts is `""`, not the input `"**"`. -/
theorem c8_counterexample :
    noBoldMatch "**".data = true ∧
    drawTextWithBold 0 "**" 0 0 cwHalf cwHalf 11 Color.black =
      [Ev.drawText 0 0 0 "" 11 true Color.black] := by decide

/-- Claim C8 (amended): for every input line whose bold markers are
unbalanced or unmatched (no substring matches `\*\*[^*]+\*\*`) and which
does not both start and end with `"**"`, `drawTextWithBold` treats the
whole line as literal plain text: it emits exactly one run, drawn in the
plain font, whose text is the input line. -/
theorem c8_unmatched_markers_plain (page : Nat) (text : String) (x y : ℚ)
    (font fontBold : Char → ℚ) (size : ℚ) (color : Color)
    (hnm : noBoldMatch text.data = true)
    (hse : ¬(text.data.take 2 = ['*', '*'] ∧ text.data.reverse.take 2 = ['*', '*'])) :
    drawTextWithBold page text x y font fontBold size color =
      [Ev.drawText page x y text size false color] := by
  unfold drawTextWithBold
  rw [boldSplit_no_match text.data hnm]
  simp only [drawBoldGo]
  rw [if_neg hse]
  rfl

theorem c8_unmatched_markers_plain_witness :
    (noBoldMatch "a*b".data = true ∧
      ¬("a*b".data.take 2 = ['*', '*'] ∧ "a*b".data.reverse.take 2 = ['*', '*'])) ∧
    drawTextWithBold 0 "a*b" 0 0 cwHalf cwHalf 11 Color.black =
      [Ev.drawText 0 0 0 "a*b" 11 false Color.black] :=
  ⟨⟨by decide, by decide⟩,
    c8_unmatched_markers_plain 0 "a*b" 0 0 cwHalf cwHalf 11 Color.black
      (by decide) (by decide)⟩

/-! ## Lemmas about the body-loop drawing helpers -/

theorem rollCheck_no_text (st : BState) :
    (rollCheck st).2.filterMap Ev.textOf = [] := by
  unfold rollCheck
  split <;> rfl

theorem rollCheck_no_draw (st : BState) :
    ((rollCheck st).2.all fun e => !e.isDrawText) = true := by
  unfold rollCheck
  split <;> rfl

theorem drawBlock_texts (size lh x : ℚ) (bold : Bool) (color : Color) :
    ∀ (st : BState) (ls : List String),
    (drawBlock size lh x bold color st ls).2.filterMap Ev.textOf = ls
  | _, [] => rfl
  | st, l :: ls => by
    simp only [drawBlock, List.filterMap_cons, List.filterMap_append,
      rollCheck_no_text, Ev.textOf]
    rw [drawBlock_texts size lh x bold color _ ls]
    simp

theorem splitP_head_of_ne (l : List Char) (hne : l ≠ [])
    (hhd : ∀ d, l.head? = some d → ¬d = ' ') :
    ∃ h t, splitP (fun c => c = ' ') l = h :: t ∧ h ≠ [] := by
  rcases l with - | ⟨c, cs⟩
  · exact absurd rfl hne
  · have hc : ¬c = ' ' := hhd c rfl
    simp only [splitP]
    rw [if_neg (by simp [hc])]
    rcases hsp : splitP (fun c => c = ' ') cs with - | ⟨v, vs⟩
    · exact absurd hsp (splitP_ne_nil _ cs)
    · exact ⟨c :: v, vs, rfl, by simp⟩

theorem wrapText_fits (l : String) (font : Char → ℚ) (size maxWidth : ℚ)
    (hf : ∀ c, 0 ≤ font c) (hs : 0 ≤ size) (hne : l.data ≠ [])
    (hhd : ∀ d, l.data.head? = some d → ¬d = ' ')
    (hfit : widthOfTextAtSize font l size ≤ maxWidth) :
    wrapText l font size maxWidth = [l] := by
  obtain ⟨h, t, hsp, hhne⟩ := splitP_head_of_ne l.data hne hhd
  have hjoin : joinSp (h :: t) = l.data := by
    have := joinSp_splitP l.data
    rwa [hsp] at this
  simp only [wrapText, hsp]
  have hstep : wrapGo font size maxWidth (h :: t) [] =
      wrapGo font size maxWidth t h := by
    simp only [wrapGo]
    rw [if_neg (by simp)]
    simp
  rw [hstep]
  rcases t with - | ⟨v, vs⟩
  · simp only [wrapGo]
    rw [if_neg hhne]
    have : h = l.data := hjoin
    simp only [List.map_cons, List.map_nil, this]
    rfl
  · have hwle : widthC font (joinSp (h :: v :: vs)) size ≤ maxWidth := by
      rw [hjoin]
      exact hfit
    have hfitk : ∀ k, widthC font (joinSp (h :: (v :: vs).take k)) size ≤ maxWidth := by
      intro k
      obtain ⟨rest, hrest⟩ := joinSp_take_prefix h (v :: vs) k
      have hle := widthC_le_append hf hs (joinSp (h :: (v :: vs).take k)) rest
      rw [← hrest] at hle
      exact le_trans hle hwle
    rw [wrapGo_noflush font size maxWidth (v :: vs) h hhne hfitk, hjoin]
    rfl

/-- Claim C9: a trimmed, non-blank body line that starts with the bullet
glyph `"·"` (and neither ends with a colon nor matches the loose
job-experience test) is drawn as a skills category whose text is the full
trimmed line with the glyph still included: the drawn texts are exactly
the wrap of the whole line, and when the line fits the available width it
is drawn as the single text `[raw]`, byte-for-byte, glyph included. -/
theorem c9_skills_glyph_not_stripped (font fontBold : Char → ℚ) (st : BState)
    (raw : String)
    (htrim : ofChars (jsTrim raw.data) = raw) (hne : raw ≠ "")
    (hcolon : endsWithColon raw = false) (hloose : looseScan raw.data = false)
    (hglyph : raw.data.take 1 = ['·'])
    (hfb : ∀ c, 0 ≤ fontBold c)
    (hfit : widthOfTextAtSize fontBold raw (BODY_SIZE + 1) ≤ CONTENT_WIDTH - 20) :
    ((bodyStep font fontBold st raw).2.filterMap Ev.textOf) =
      wrapText raw fontBold (BODY_SIZE + 1) (CONTENT_WIDTH - 20) ∧
    ((bodyStep font fontBold st raw).2.filterMap Ev.textOf) = [raw] := by
  have hmain : ((bodyStep font fontBold st raw).2.filterMap Ev.textOf) =
      wrapText raw fontBold (BODY_SIZE + 1) (CONTENT_WIDTH - 20) := by
    simp only [bodyStep, htrim, hne, hcolon, hloose, hglyph]
    simp [List.filterMap_append, drawBlock_texts, rollCheck_no_text]
  have hne' : raw.data ≠ [] := by
    intro hd
    apply hne
    cases raw with
    | mk d =>
      simp only at hd
      subst hd
      rfl
  have hhd : ∀ d, raw.data.head? = some d → ¬d = ' ' := by
    intro d hd
    rcases hcs : raw.data with - | ⟨c, cs⟩
    · rw [hcs] at hd
      simp at hd
    · rw [hcs] at hd hglyph
      simp only [List.head?_cons, Option.some.injEq] at hd
      simp only [List.take_succ_cons, List.take_zero, List.cons.injEq] at hglyph
      rw [← hd, hglyph.1]
      simp
  refine ⟨hmain, ?_⟩
  rw [hmain, wrapText_fits raw fontBold (BODY_SIZE + 1) (CONTENT_WIDTH - 20) hfb
    (by norm_num [BODY_SIZE]) hne' hhd hfit]

unseal Rat.add Rat.mul Rat.inv Rat.sub Rat.ofScientific in
theorem c9_skills_glyph_not_stripped_witness :
    (ofChars (jsTrim "· Tools".data) = "· Tools" ∧ "· Tools" ≠ "" ∧
      endsWithColon "· Tools" = false ∧ looseScan "· Tools".data = false ∧
      "· Tools".data.take 1 = ['·'] ∧
      widthOfTextAtSize cwHalf "· Tools" (BODY_SIZE + 1) ≤ CONTENT_WIDTH - 20) ∧
    (((bodyStep cwHalf cwHalf st770 "· Tools").2.filterMap Ev.textOf) =
        wrapText "· Tools" cwHalf (BODY_SIZE + 1) (CONTENT_WIDTH - 20) ∧
      ((bodyStep cwHalf cwHalf st770 "· Tools").2.filterMap Ev.textOf) =
        ["· Tools"]) :=
  ⟨⟨by decide, by decide, by decide, by decide, by decide, by decide⟩,
    c9_skills_glyph_not_stripped cwHalf cwHalf st770 "· Tools" (by decide)
      (by decide) (by decide) (by decide) (by decide)
      (fun c => by norm_num [cwHalf]) (by decide)⟩

unseal Rat.add Rat.mul Rat.inv Rat.sub Rat.ofScientific in
/-- Claim C2 counterexample: the trimmed, non-blank line `"a\rb at c:d"`
(with an embedded carriage return) does not end with a colon, passes the
loose job-experience test, and fails the strict three-group pattern
(JavaScript `.` does not match `\r`, so `^(.+?)` cannot cover the prefix)
— yet it is NOT drawn as regular indented body text: the body loop emits
no events at all for it, while actually drawing it as plain body text
would emit a non-empty event list. -/
theorem c2_counterexample :
    ofChars (jsTrim "a\rb at c:d".data) = "a\rb at c:d" ∧
    "a\rb at c:d" ≠ "" ∧
    endsWithColon "a\rb at c:d" = false ∧
    looseScan "a\rb at c:d".data = true ∧
    strictMatch "a\rb at c:d".data = none ∧
    (bodyStep cwHalf cwHalf st770 "a\rb at c:d").2 = [] ∧
    (drawPlainBlock cwHalf cwHalf st770
      (wrapText "a\rb at c:d" cwHalf BODY_SIZE (CONTENT_WIDTH - 10))).2 ≠ [] := by
  decide

/-- Claim C2 (amended): a trimmed, non-blank body line that does not end
with a colon, matches the loose job-experience test, but fails the strict
three-group pattern is skipped entirely: no JobEntry is emitted and
nothing is drawn for it (the `if (match)` branch has no else, so the line
does NOT fall through to plain body text). -/
theorem c2_loose_without_strict_skipped (font fontBold : Char → ℚ)
    (st : BState) (raw : String)
    (htrim : ofChars (jsTrim raw.data) = raw) (hne : raw ≠ "")
    (hcolon : endsWithColon raw = false)
    (hloose : looseScan raw.data = true)
    (hstrict : strictMatch raw.data = none) :
    ((bodyStep font fontBold st raw).2.all fun e => !e.isDrawText) = true := by
  simp only [bodyStep, htrim, hne, hcolon, hloose, hstrict]
  simp [rollCheck_no_draw]

unseal Rat.add Rat.mul Rat.inv Rat.sub Rat.ofScientific in
theorem c2_loose_without_strict_skipped_witness :
    (ofChars (jsTrim "a\rb at c:d".data) = "a\rb at c:d" ∧
      "a\rb at c:d" ≠ "" ∧ endsWithColon "a\rb at c:d" = false ∧
      looseScan "a\rb at c:d".data = true ∧
      strictMatch "a\rb at c:d".data = none) ∧
    ((bodyStep cwHalf cwHalf st770 "a\rb at c:d").2.all
      fun e => !e.isDrawText) = true :=
  ⟨⟨by decide, by decide, by decide, by decide, by decide⟩,
    c2_loose_without_strict_skipped cwHalf cwHalf st770 "a\rb at c:d"
      (by decide) (by decide) (by decide) (by decide) (by decide)⟩

/-! ## The fuel of `boldSplitFuel` is irrelevant once it covers the input -/

theorem boldMatchCore_length {cs m rest : List Char}
    (h : boldMatchCore cs = some (m, rest)) : rest.length < cs.length + 2 := by
  unfold boldMatchCore at h
  split at h
  case h_1 r heq =>
    split at h
    · simp at h
    · simp only [Option.some.injEq, Prod.mk.injEq] at h
      obtain ⟨-, hrest⟩ := h
      have hlen := congrArg List.length heq
      simp only [List.length_drop, List.length_cons] at hlen
      subst hrest
      omega
  case h_2 => simp at h

theorem boldMatchAt_length {l m rest : List Char}
    (h : boldMatchAt l = some (m, rest)) : rest.length < l.length := by
  unfold boldMatchAt at h
  split at h
  case h_1 cs =>
    have := boldMatchCore_length h
    simp only [List.length_cons]
    omega
  case h_2 => simp at h

theorem boldSplitFuel_congr : ∀ (fuel₁ : Nat) (fuel₂ : Nat) (acc l : List Char),
    l.length ≤ fuel₁ → l.length ≤ fuel₂ →
    boldSplitFuel fuel₁ acc l = boldSplitFuel fuel₂ acc l
  | 0, fuel₂, acc, l, h1, _ => by
    have : l = [] := by
      cases l with
      | nil => rfl
      | cons c cs => simp at h1
    subst this
    cases fuel₂ <;> simp [boldSplitFuel]
  | _ + 1, 0, acc, l, _, h2 => by
    have : l = [] := by
      cases l with
      | nil => rfl
      | cons c cs => simp at h2
    subst this
    simp [boldSplitFuel]
  | f1 + 1, f2 + 1, acc, [], _, _ => by simp [boldSplitFuel]
  | f1 + 1, f2 + 1, acc, c :: cs, h1, h2 => by
    simp only [boldSplitFuel]
    rcases hm : boldMatchAt (c :: cs) with - | ⟨m, rest⟩
    · exact boldSplitFuel_congr f1 f2 (c :: acc) cs
        (by simpa using h1) (by simpa using h2)
    · have hlen := boldMatchAt_length hm
      simp only [List.length_cons] at hlen h1 h2
      exact congrArg (fun x => acc.reverse :: m :: x)
        (boldSplitFuel_congr f1 f2 [] rest (by omega) (by omega))

/-- With `fuel ≥ l.length` the zero-fuel branch of `boldSplitFuel` is
unreachable: any sufficient fuel computes the same split as
`boldSplit`. -/
theorem boldSplitFuel_fuel_free (fuel : Nat) (acc l : List Char)
    (h : l.length ≤ fuel) :
    boldSplitFuel fuel acc l = boldSplitFuel l.length acc l :=
  boldSplitFuel_congr fuel l.length acc l h le_rfl

theorem boldSplitFuel_fuel_free_witness :
    "ab**c**d".data.length ≤ 20 ∧
    boldSplitFuel 20 [] "ab**c**d".data =
      boldSplitFuel "ab**c**d".data.length [] "ab**c**d".data :=
  ⟨by decide, boldSplitFuel_fuel_free 20 [] "ab**c**d".data (by decide)⟩

end ResumeTailor
